import Mathlib

/-!
Verification of the NeuroBin fixed-capacity LRU cache
(`src/cache/mod.rs`, `src/cache/lru.rs`, `src/cache/storage.rs`).

The Rust code is shallowly embedded as executable Lean functions:

* `ArrayD T` models `ndarray::ArrayD<T>` as a shape together with the
  flattened element data.
* `SliceInfoElem` models `ndarray::SliceInfoElem` (Slice / Index / NewAxis).
* `Storage T` models `storage.rs`; the `none` result of `set_subarray`
  models an `ndarray` panic (dimension mismatch of the slice argument, or a
  non-broadcastable `assign`), which unwinds before any cache field is
  mutated.
* `LruCache K` models `lru.rs`: a `VecDeque` (front = oldest) plus a
  capacity.
* `Cache K T` models `mod.rs`: the `HashMap` is modelled as an association
  list whose operations follow `HashMap` semantics (lookup, replace on
  insert, remove). `Rc<K>` compares by value, so keys are modelled as plain
  values of `K`.
* `SetResult` is the outcome of `Cache::set`: `Ok(())`, `Err(msg)`, or a
  panic raised inside the slice-and-assign step. A panicking call leaves
  the cache untouched because the panic site precedes every mutation of
  `self` in the source.
-/

set_option autoImplicit false

namespace NeuroBin

universe u

variable {K : Type} {T : Type} {V : Type}

/-- Models `ndarray::ArrayD<T>`: a dynamic shape and the flattened data. -/
structure ArrayD (T : Type) where
  shape : List Nat
  data : List T
deriving DecidableEq, Repr

/-- Number of dimensions (`ndarray` `ndim`, the length of the shape). -/
def ArrayD.ndim (a : ArrayD T) : Nat := a.shape.length

/-- Models `ndarray::SliceInfoElem`. The field `stop` is the Rust `end`. -/
inductive SliceInfoElem where
  | slice (start : Int) (stop : Option Int) (step : Int)
  | index (i : Int)
  | newAxis
deriving DecidableEq, Repr

/-- Resolve a possibly negative endpoint against a dimension of size `d`,
clamped to `[0, d]` (standard `ndarray`/NumPy slicing arithmetic). -/
def resolveIndex (i : Int) (d : Nat) : Nat :=
  let j : Int := if i < 0 then (d : Int) + i else i
  (min (max j 0) (d : Int)).toNat

/-- Number of elements selected by `slice start stop step` in a dimension of
size `d`. Negative steps are not modelled: no code in this repository
constructs them. -/
def sliceLen (start : Int) (stop : Option Int) (step : Int) (d : Nat) : Nat :=
  let lo := resolveIndex start d
  let hi := match stop with
    | none => d
    | some s => resolveIndex s d
  if step ≤ 0 then 0
  else (hi - lo + (step.toNat - 1)) / step.toNat

/-- Output shape of slicing an array of shape `dims` with `indices`, or
`none` when the slice argument is rejected: for dynamic-dimensional arrays,
`ndarray` requires the number of `Slice`/`Index` elements (`NewAxis`
consumes no input axis) to equal the number of array dimensions, and panics
otherwise. -/
def sliceOutShape : List SliceInfoElem → List Nat → Option (List Nat)
  | [], [] => some []
  | SliceInfoElem.newAxis :: rest, dims =>
      (sliceOutShape rest dims).map (fun out => 1 :: out)
  | SliceInfoElem.slice start stop step :: rest, d :: dims =>
      (sliceOutShape rest dims).map (fun out => sliceLen start stop step d :: out)
  | SliceInfoElem.index _ :: rest, _ :: dims => sliceOutShape rest dims
  | _, _ => none

/-- A slice element selecting a full extent: the full slice `0..` with step
1, or `NewAxis` (which selects everything while adding a length-1 axis). -/
def isFullExtent : SliceInfoElem → Bool
  | SliceInfoElem.slice 0 none 1 => true
  | SliceInfoElem.newAxis => true
  | _ => false

/-- Product of a shape, the element count of a dense buffer
(`ArrayD::zeros` allocates this many zeros; the product of the empty shape
is 1, a zero-dimensional array holds one element). -/
def shapeProd : List Nat → Nat
  | [] => 1
  | d :: rest => d * shapeProd rest

/-- Models the `Storage` struct of `storage.rs`. -/
structure Storage (T : Type) where
  data : ArrayD T
deriving DecidableEq, Repr

/-- Models `Storage::new`: a zero-filled buffer of the given shape. -/
def Storage.new [Zero T] (shape : List Nat) : Storage T :=
  ⟨⟨shape, List.replicate (shapeProd shape) 0⟩⟩

/-- Models `Storage::set_subarray`, i.e. `self.data.slice_mut(indices).assign(values)`.
`none` models a panic: either the slice argument does not consume exactly
the array dimensions (`sliceOutShape` rejects it) or the assigned shape
does not match the selected region (`assign` panics when shapes cannot be
unified; broadcasting a smaller right-hand side is not modelled because no
call in this repository uses it). The written data is modelled for
full-extent regions, the only regions the repository constructs
(`Cache::set` passes all-`NewAxis` indices, the tests pass full slices):
such a region covers the whole buffer, so `assign` replaces the entire
contents in order. Arithmetic for strided proper sub-regions is out of
scope per the spec (the array library is an external collaborator). -/
def Storage.set_subarray (st : Storage T) (indices : List SliceInfoElem)
    (values : ArrayD T) : Option (Storage T) :=
  match sliceOutShape indices st.data.shape with
  | none => none
  | some outShape =>
      if values.shape = outShape then
        if indices.all isFullExtent then
          some ⟨⟨st.data.shape, values.data⟩⟩
        else
          some st
      else none

/-- Models `Storage::get_data`: a read-only view of the full buffer. -/
def Storage.get_data (st : Storage T) : ArrayD T := st.data

/-- Models the `LruCache` struct of `lru.rs`: the `VecDeque` order (front =
head = oldest, back = last = newest) and its capacity. -/
structure LruCache (K : Type) where
  order : List K
  capacity : Nat
deriving DecidableEq, Repr

/-- Models `LruCache::new`. -/
def LruCache.new (capacity : Nat) : LruCache K :=
  ⟨[], capacity⟩

/-- Models `LruCache::access`: if the key is present, remove it from its
position and push it to the back; otherwise, if the order is at capacity,
pop the front first; then push the key to the back. -/
def LruCache.access [DecidableEq K] (c : LruCache K) (key : K) : LruCache K :=
  if key ∈ c.order then
    { c with order := c.order.erase key ++ [key] }
  else if c.order.length = c.capacity then
    { c with order := c.order.tail ++ [key] }
  else
    { c with order := c.order ++ [key] }

/-- Models `LruCache::evict`: pop the front (oldest) key, if any. -/
def LruCache.evict (c : LruCache K) : Option K × LruCache K :=
  match c.order with
  | [] => (none, c)
  | k :: rest => (some k, { c with order := rest })

/-- Models `LruCache::remove`: remove the key at its found position. -/
def LruCache.remove [DecidableEq K] (c : LruCache K) (key : K) :
    Bool × LruCache K :=
  if key ∈ c.order then (true, { c with order := c.order.erase key })
  else (false, c)

/-- Keys of an association list, in insertion order. -/
def mapKeys (m : List (K × V)) : List K := m.map Prod.fst

/-- `HashMap::get` on the association-list model. -/
def assocGet [DecidableEq K] : List (K × V) → K → Option V
  | [], _ => none
  | (k2, v) :: rest, k => if k2 = k then some v else assocGet rest k

/-- `HashMap::insert` on the association-list model: replace the entry if
the key is present, otherwise append a new entry. -/
def assocInsert [DecidableEq K] : List (K × V) → K → V → List (K × V)
  | [], k, v => [(k, v)]
  | (k2, v2) :: rest, k, v =>
      if k2 = k then (k, v) :: rest else (k2, v2) :: assocInsert rest k v

/-- `HashMap::remove` on the association-list model. -/
def assocRemove [DecidableEq K] : List (K × V) → K → List (K × V)
  | [], _ => []
  | (k2, v2) :: rest, k =>
      if k2 = k then rest else (k2, v2) :: assocRemove rest k

/-- Models the `Cache` struct of `mod.rs`. -/
structure Cache (K T : Type) where
  map : List (K × Storage T)
  lru : LruCache K
  capacity : Nat
deriving DecidableEq, Repr

deriving instance DecidableEq for Except

/-- Outcome of `Cache::set`: `Ok(())`, `Err(msg)`, or a panic raised by the
`slice_mut`/`assign` step (which precedes every mutation of the cache, so a
panicking call leaves the cache state unchanged). -/
inductive SetResult where
  | ok
  | error (msg : String)
  | panicked
deriving DecidableEq, Repr

/-- Models `Cache::new`. -/
def Cache.new (capacity : Nat) : Cache K T :=
  { map := [], lru := LruCache.new capacity, capacity := capacity }

/-- Models `Cache::set`: build a zero storage of the value shape, write the
value through an all-`NewAxis` slice argument (`vec![SliceInfoElem::NewAxis;
shape.ndim()]`), then, if `map.len() >= capacity`, evict the least recently
used key and remove its mapping entry (erroring when the tracker is empty),
and finally touch the tracker and insert the mapping entry. -/
def Cache.set [DecidableEq K] [Zero T] (c : Cache K T) (key : K)
    (value : ArrayD T) : SetResult × Cache K T :=
  let shape := value.shape
  let storage0 : Storage T := Storage.new shape
  let indices : List SliceInfoElem :=
    List.replicate shape.length SliceInfoElem.newAxis
  match storage0.set_subarray indices value with
  | none => (SetResult.panicked, c)
  | some storage =>
    if c.map.length ≥ c.capacity then
      match c.lru.evict with
      | (some evictedKey, lru1) =>
          let map1 := assocRemove c.map evictedKey
          (SetResult.ok,
            { c with map := assocInsert map1 key storage,
                     lru := lru1.access key })
      | (none, _) =>
          (SetResult.error "Cache is full and unable to evict items", c)
    else
      (SetResult.ok,
        { c with map := assocInsert c.map key storage,
                 lru := c.lru.access key })

/-- Models `Cache::get`: on a hit, touch the tracker and return a read-only
view of the full buffer; on a miss, return the not-found error. -/
def Cache.get [DecidableEq K] (c : Cache K T) (key : K) :
    Except String (ArrayD T) × Cache K T :=
  match assocGet c.map key with
  | some storage =>
      (Except.ok storage.get_data, { c with lru := c.lru.access key })
  | none => (Except.error "Key not found in cache", c)

/-- Models `Cache::delete`: if `map.remove` finds the key, also remove it
from the tracker; otherwise return the not-found error. -/
def Cache.delete [DecidableEq K] (c : Cache K T) (key : K) :
    Except String Unit × Cache K T :=
  match assocGet c.map key with
  | some _ =>
      (Except.ok (),
        { c with map := assocRemove c.map key,
                 lru := (c.lru.remove key).2 })
  | none => (Except.error "Key not found in cache", c)

/-- Run a sequence of `set` calls, keeping only the final state. -/
def setSeq [DecidableEq K] [Zero T] (c : Cache K T) :
    List (K × ArrayD T) → Cache K T
  | [] => c
  | (k, v) :: rest => setSeq (c.set k v).2 rest

/-- States reachable from `Cache::new` by completed public operations. A
panicking `set` is included with its (unchanged) state, since the panic
site precedes every mutation of the cache. -/
inductive Reachable [DecidableEq K] [Zero T] : Cache K T → Prop where
  | new (capacity : Nat) : Reachable (Cache.new capacity)
  | set {c : Cache K T} (key : K) (value : ArrayD T) :
      Reachable c → Reachable (c.set key value).2
  | get {c : Cache K T} (key : K) :
      Reachable c → Reachable (c.get key).2
  | delete {c : Cache K T} (key : K) :
      Reachable c → Reachable (c.delete key).2

/-- Well-formedness of a cache state: the mapping keys are a permutation of
the tracker order, the order has no duplicates, the mapping size is within
capacity, and the tracker capacity agrees with the cache capacity. -/
def Wf [DecidableEq K] (c : Cache K T) : Prop :=
  (mapKeys c.map).Perm c.lru.order ∧ c.lru.order.Nodup ∧
    c.map.length ≤ c.capacity ∧ c.lru.capacity = c.capacity

/-- Example state: a capacity-1 cache filled with key 0 (used to exercise
theorems at concrete inputs). -/
def exCacheOneFull : Cache Nat Int := ((Cache.new 1).set 0 ⟨[], [7]⟩).2

/-- Example state: a capacity-2 cache filled with keys 1 and 2. -/
def exCacheTwoFull : Cache Nat Int :=
  setSeq (Cache.new 2) [(1, ⟨[], [42]⟩), (2, ⟨[], [43]⟩)]

/-- Example tracker: keys 1 (oldest) and 2 (newest), capacity 2. -/
def exLru : LruCache Nat := ⟨[1, 2], 2⟩

/-! ### Association-list lemmas -/

theorem mapKeys_nil : mapKeys ([] : List (K × V)) = [] := rfl

theorem mapKeys_cons (p : K × V) (m : List (K × V)) :
    mapKeys (p :: m) = p.1 :: mapKeys m := rfl

theorem length_mapKeys (m : List (K × V)) :
    (mapKeys m).length = m.length := List.length_map _ _

theorem mapKeys_assocInsert_of_mem [DecidableEq K] {m : List (K × V)} {k : K}
    (v : V) (h : k ∈ mapKeys m) :
    mapKeys (assocInsert m k v) = mapKeys m := by
  induction m with
  | nil => simp [mapKeys] at h
  | cons p rest ih =>
    obtain ⟨k2, v2⟩ := p
    by_cases hk : k2 = k
    · subst hk
      simp [assocInsert, mapKeys]
    · simp only [mapKeys_cons, List.mem_cons] at h
      rcases h with h | h
      · exact absurd h.symm hk
      · simp [assocInsert, hk, mapKeys_cons, ih h]

theorem mapKeys_assocInsert_of_not_mem [DecidableEq K] {m : List (K × V)}
    {k : K} (v : V) (h : k ∉ mapKeys m) :
    mapKeys (assocInsert m k v) = mapKeys m ++ [k] := by
  induction m with
  | nil => simp [assocInsert, mapKeys]
  | cons p rest ih =>
    obtain ⟨k2, v2⟩ := p
    simp only [mapKeys_cons, List.mem_cons] at h
    push_neg at h
    simp [assocInsert, Ne.symm h.1, mapKeys_cons, ih h.2]

theorem mem_mapKeys_assocInsert [DecidableEq K] {m : List (K × V)} {k k2 : K}
    (v : V) :
    k2 ∈ mapKeys (assocInsert m k v) ↔ k2 ∈ mapKeys m ∨ k2 = k := by
  by_cases h : k ∈ mapKeys m
  · rw [mapKeys_assocInsert_of_mem v h]
    constructor
    · exact Or.inl
    · rintro (h2 | h2)
      · exact h2
      · exact h2 ▸ h
  · rw [mapKeys_assocInsert_of_not_mem v h]
    simp

theorem mapKeys_assocRemove [DecidableEq K] (m : List (K × V)) (k : K) :
    mapKeys (assocRemove m k) = (mapKeys m).erase k := by
  induction m with
  | nil => simp [assocRemove, mapKeys]
  | cons p rest ih =>
    obtain ⟨k2, v2⟩ := p
    by_cases hk : k2 = k
    · subst hk
      simp [assocRemove, mapKeys_cons, List.erase_cons_head]
    · rw [mapKeys_cons, List.erase_cons_tail]
      · simp [assocRemove, hk, mapKeys_cons, ih]
      · simp [hk]

theorem assocGet_assocInsert_self [DecidableEq K] (m : List (K × V)) (k : K)
    (v : V) : assocGet (assocInsert m k v) k = some v := by
  induction m with
  | nil => simp [assocInsert, assocGet]
  | cons p rest ih =>
    obtain ⟨k2, v2⟩ := p
    by_cases hk : k2 = k
    · subst hk
      simp [assocInsert, assocGet]
    · simp [assocInsert, hk, assocGet, ih]

theorem assocGet_eq_none_iff [DecidableEq K] {m : List (K × V)} {k : K} :
    assocGet m k = none ↔ k ∉ mapKeys m := by
  induction m with
  | nil => simp [assocGet, mapKeys]
  | cons p rest ih =>
    obtain ⟨k2, v2⟩ := p
    by_cases hk : k2 = k
    · subst hk
      simp [assocGet, mapKeys_cons]
    · simp [assocGet, hk, mapKeys_cons, ih, Ne.symm hk]

theorem assocGet_isSome_iff [DecidableEq K] {m : List (K × V)} {k : K} :
    (assocGet m k).isSome ↔ k ∈ mapKeys m := by
  constructor
  · intro hs
    by_contra hk
    rw [← assocGet_eq_none_iff] at hk
    rw [hk] at hs
    simp at hs
  · intro hk
    cases h : assocGet m k with
    | none => exact absurd hk (assocGet_eq_none_iff.mp h)
    | some v => simp

/-! ### LruCache access lemmas -/

theorem access_capacity [DecidableEq K] (l : LruCache K) (key : K) :
    (l.access key).capacity = l.capacity := by
  unfold LruCache.access
  split <;> [rfl; split <;> rfl]

theorem access_order_of_mem [DecidableEq K] {l : LruCache K} {key : K}
    (h : key ∈ l.order) :
    (l.access key).order = l.order.erase key ++ [key] := by
  unfold LruCache.access
  rw [if_pos h]

theorem access_order_of_not_mem_ne [DecidableEq K] {l : LruCache K} {key : K}
    (h : key ∉ l.order) (h2 : l.order.length ≠ l.capacity) :
    (l.access key).order = l.order ++ [key] := by
  unfold LruCache.access
  rw [if_neg h, if_neg h2]

theorem access_order_of_not_mem_eq [DecidableEq K] {l : LruCache K} {key : K}
    (h : key ∉ l.order) (h2 : l.order.length = l.capacity) :
    (l.access key).order = l.order.tail ++ [key] := by
  unfold LruCache.access
  rw [if_neg h, if_pos h2]

theorem access_order_getLast [DecidableEq K] (l : LruCache K) (key : K) :
    (l.access key).order.getLast? = some key := by
  unfold LruCache.access
  split
  · exact List.getLast?_concat _
  · split <;> exact List.getLast?_concat _

/-! ### Reduction of `Cache::set` by value dimension -/

theorem sliceOutShape_replicate_newAxis (n : Nat) (dims : List Nat) :
    sliceOutShape (List.replicate n SliceInfoElem.newAxis) dims =
      if dims = [] then some (List.replicate n 1) else none := by
  induction n with
  | zero =>
    cases dims <;> simp [sliceOutShape]
  | succ n ih =>
    rw [List.replicate_succ]
    cases dims with
    | nil => simp [sliceOutShape, ih, List.replicate_succ]
    | cons d rest => simp [sliceOutShape, ih]

theorem set_eq_of_shape_nil [DecidableEq K] [Zero T] (c : Cache K T) (key : K)
    {value : ArrayD T} (hv : value.shape = []) :
    c.set key value =
      (if c.map.length ≥ c.capacity then
        match c.lru.evict with
        | (some evictedKey, lru1) =>
            (SetResult.ok,
              { c with
                  map := assocInsert (assocRemove c.map evictedKey) key
                    ⟨⟨[], value.data⟩⟩,
                  lru := lru1.access key })
        | (none, _) =>
            (SetResult.error "Cache is full and unable to evict items", c)
      else
        (SetResult.ok,
          { c with map := assocInsert c.map key ⟨⟨[], value.data⟩⟩,
                   lru := c.lru.access key })) := by
  obtain ⟨sh, dat⟩ := value
  simp only [ArrayD.shape] at hv
  subst hv
  rfl

theorem set_subarray_newAxis_of_ne_nil [Zero T] {sh : List Nat} (h : sh ≠ [])
    (values : ArrayD T) :
    (Storage.new sh : Storage T).set_subarray
      (List.replicate sh.length SliceInfoElem.newAxis) values = none := by
  unfold Storage.set_subarray
  rw [show (Storage.new sh : Storage T).data.shape = sh from rfl]
  rw [sliceOutShape_replicate_newAxis, if_neg h]

theorem set_eq_panicked_of_shape_ne_nil [DecidableEq K] [Zero T]
    (c : Cache K T) (key : K) {value : ArrayD T} (hv : value.shape ≠ []) :
    c.set key value = (SetResult.panicked, c) := by
  simp only [Cache.set]
  rw [set_subarray_newAxis_of_ne_nil hv]

/-! ### Preservation of well-formedness -/

theorem perm_erase_append_singleton [DecidableEq K] {o : List K} {key : K}
    (hk : key ∈ o) : (o.erase key ++ [key]).Perm o :=
  (List.perm_append_singleton key _).trans (List.perm_cons_erase hk).symm

theorem access_present_perm [DecidableEq K] {l : LruCache K} {key : K}
    {keys : List K} (hperm : keys.Perm l.order) (hnd : l.order.Nodup)
    (hk : key ∈ l.order) :
    keys.Perm (l.access key).order ∧ (l.access key).order.Nodup := by
  rw [access_order_of_mem hk]
  have p1 : (l.order.erase key ++ [key]).Perm l.order :=
    perm_erase_append_singleton hk
  exact ⟨hperm.trans p1.symm, p1.nodup_iff.mpr hnd⟩

theorem append_fresh_perm {keys o : List K} (key : K) (hperm : keys.Perm o)
    (hnd : o.Nodup) (hk : key ∉ o) :
    (keys ++ [key]).Perm (o ++ [key]) ∧ (o ++ [key]).Nodup :=
  ⟨hperm.append_right [key],
    (List.perm_append_singleton key o).nodup_iff.mpr
      (List.nodup_cons.mpr ⟨hk, hnd⟩)⟩

theorem wf_mk [DecidableEq K] {m : List (K × Storage T)} {l : LruCache K}
    {cap : Nat} (h1 : (mapKeys m).Perm l.order) (h2 : l.order.Nodup)
    (h3 : m.length ≤ cap) (h4 : l.capacity = cap) :
    Wf (Cache.mk m l cap) :=
  ⟨h1, h2, h3, h4⟩

theorem wf_new [DecidableEq K] (capacity : Nat) :
    Wf (Cache.new capacity : Cache K T) := by
  refine ⟨?_, ?_, ?_, ?_⟩ <;> simp [Cache.new, LruCache.new, mapKeys]

theorem wf_set [DecidableEq K] [Zero T] {c : Cache K T} (key : K)
    (value : ArrayD T) (h : Wf c) : Wf (c.set key value).2 := by
  obtain ⟨hperm, hnd, hlen, hcap⟩ := h
  by_cases hv : value.shape = []
  · rw [set_eq_of_shape_nil c key hv]
    by_cases hge : c.map.length ≥ c.capacity
    · rw [if_pos hge]
      cases hord : c.lru.order with
      | nil =>
        simp only [LruCache.evict, hord]
        exact ⟨hperm, hnd, hlen, hcap⟩
      | cons e o2 =>
        simp only [LruCache.evict, hord]
        rw [hord] at hperm hnd
        have hfull : c.map.length = c.capacity := le_antisymm hlen hge
        have hlen2 : c.map.length = o2.length + 1 := by
          rw [← length_mapKeys, hperm.length_eq, List.length_cons]
        have perm1 : (mapKeys (assocRemove c.map e)).Perm o2 := by
          rw [mapKeys_assocRemove]
          have h5 := hperm.erase e
          rwa [List.erase_cons_head] at h5
        have hnd2 : o2.Nodup := hnd.of_cons
        have hlru1cap : (LruCache.mk o2 c.lru.capacity).capacity = c.capacity :=
          hcap
        by_cases hk : key ∈ o2
        · have hkeys : key ∈ mapKeys (assocRemove c.map e) :=
            perm1.mem_iff.mpr hk
          obtain ⟨p2, nd2⟩ := access_present_perm perm1 hnd2
            (show key ∈ (LruCache.mk o2 c.lru.capacity).order from hk)
          refine wf_mk ?_ nd2 ?_ ?_
          · rwa [mapKeys_assocInsert_of_mem _ hkeys]
          · rw [← length_mapKeys, mapKeys_assocInsert_of_mem _ hkeys,
              perm1.length_eq]
            omega
          · rw [access_capacity]
            exact hlru1cap
        · have hkeys : key ∉ mapKeys (assocRemove c.map e) := fun hmem =>
            hk (perm1.mem_iff.mp hmem)
          have hne : (LruCache.mk o2 c.lru.capacity).order.length ≠
              (LruCache.mk o2 c.lru.capacity).capacity := by
            show o2.length ≠ c.lru.capacity
            rw [hcap]
            omega
          obtain ⟨p2, nd2⟩ := append_fresh_perm key perm1 hnd2 hk
          refine wf_mk ?_ ?_ ?_ ?_
          · rw [mapKeys_assocInsert_of_not_mem _ hkeys,
              access_order_of_not_mem_ne hk hne]
            exact p2
          · rw [access_order_of_not_mem_ne hk hne]
            exact nd2
          · rw [← length_mapKeys, mapKeys_assocInsert_of_not_mem _ hkeys,
              List.length_append, length_mapKeys, ← length_mapKeys,
              perm1.length_eq]
            simp only [List.length_singleton]
            omega
          · rw [access_capacity]
            exact hlru1cap
    · rw [if_neg hge]
      push_neg at hge
      by_cases hk : key ∈ c.lru.order
      · have hkeys : key ∈ mapKeys c.map := hperm.mem_iff.mpr hk
        obtain ⟨p2, nd2⟩ := access_present_perm hperm hnd hk
        refine wf_mk ?_ nd2 ?_ ?_
        · rwa [mapKeys_assocInsert_of_mem _ hkeys]
        · rw [← length_mapKeys, mapKeys_assocInsert_of_mem _ hkeys,
            length_mapKeys]
          exact hlen
        · rw [access_capacity]
          exact hcap
      · have hkeys : key ∉ mapKeys c.map := fun hmem =>
          hk (hperm.mem_iff.mp hmem)
        have hne : c.lru.order.length ≠ c.lru.capacity := by
          rw [hcap, ← hperm.length_eq, length_mapKeys]
          omega
        obtain ⟨p2, nd2⟩ := append_fresh_perm key hperm hnd hk
        refine wf_mk ?_ ?_ ?_ ?_
        · rw [mapKeys_assocInsert_of_not_mem _ hkeys,
            access_order_of_not_mem_ne hk hne]
          exact p2
        · rw [access_order_of_not_mem_ne hk hne]
          exact nd2
        · rw [← length_mapKeys, mapKeys_assocInsert_of_not_mem _ hkeys,
            List.length_append, length_mapKeys]
          simp only [List.length_singleton]
          omega
        · rw [access_capacity]
          exact hcap
  · rw [set_eq_panicked_of_shape_ne_nil c key hv]
    exact ⟨hperm, hnd, hlen, hcap⟩

theorem wf_get [DecidableEq K] {c : Cache K T} (key : K) (h : Wf c) :
    Wf (c.get key).2 := by
  obtain ⟨hperm, hnd, hlen, hcap⟩ := h
  unfold Cache.get
  cases hg : assocGet c.map key with
  | none => exact ⟨hperm, hnd, hlen, hcap⟩
  | some st =>
    have hkeys : key ∈ mapKeys c.map := by
      rw [← assocGet_isSome_iff, hg]
      rfl
    have hk : key ∈ c.lru.order := hperm.mem_iff.mp hkeys
    obtain ⟨p2, nd2⟩ := access_present_perm hperm hnd hk
    refine wf_mk p2 nd2 hlen ?_
    rw [access_capacity]
    exact hcap

theorem wf_delete [DecidableEq K] {c : Cache K T} (key : K) (h : Wf c) :
    Wf (c.delete key).2 := by
  obtain ⟨hperm, hnd, hlen, hcap⟩ := h
  unfold Cache.delete
  cases hg : assocGet c.map key with
  | none => exact ⟨hperm, hnd, hlen, hcap⟩
  | some st =>
    have hkeys : key ∈ mapKeys c.map := by
      rw [← assocGet_isSome_iff, hg]
      rfl
    have hk : key ∈ c.lru.order := hperm.mem_iff.mp hkeys
    have hrm : ((c.lru.remove key).2).order = c.lru.order.erase key := by
      unfold LruCache.remove
      rw [if_pos hk]
    have hrmcap : ((c.lru.remove key).2).capacity = c.lru.capacity := by
      unfold LruCache.remove
      split <;> rfl
    refine wf_mk ?_ ?_ ?_ ?_
    · rw [hrm, mapKeys_assocRemove]
      exact hperm.erase key
    · rw [hrm]
      exact hnd.erase key
    · rw [← length_mapKeys, mapKeys_assocRemove]
      calc ((mapKeys c.map).erase key).length
          ≤ (mapKeys c.map).length := List.length_erase_le _ _
        _ = c.map.length := length_mapKeys _
        _ ≤ c.capacity := hlen
    · rw [hrmcap]
      exact hcap

/-- Every state reachable by completed public operations is well formed. -/
theorem reachable_wf [DecidableEq K] [Zero T] {c : Cache K T}
    (h : Reachable c) : Wf c := by
  induction h with
  | new capacity => exact wf_new capacity
  | set key value _ ih => exact wf_set key value ih
  | get key _ ih => exact wf_get key ih
  | delete key _ ih => exact wf_delete key ih

/-- On a zero-dimensional value, `set` returns `Ok` or the capacity error,
never a panic. -/
theorem set_fst_of_shape_nil [DecidableEq K] [Zero T] (c : Cache K T)
    (key : K) {value : ArrayD T} (hv : value.shape = []) :
    (c.set key value).1 = SetResult.ok ∨
      (c.set key value).1 =
        SetResult.error "Cache is full and unable to evict items" := by
  rw [set_eq_of_shape_nil c key hv]
  by_cases hge : c.map.length ≥ c.capacity
  · rw [if_pos hge]
    cases hord : c.lru.order with
    | nil =>
      simp only [LruCache.evict, hord]
      right
      trivial
    | cons e o2 =>
      simp only [LruCache.evict, hord]
      left
      trivial
  · rw [if_neg hge]
    left
    trivial

/-- The all-`NewAxis` write succeeds on a zero-dimensional value and yields
the storage holding exactly that value. -/
theorem set_subarray_newAxis_of_nil [Zero T] {value : ArrayD T}
    (hv : value.shape = []) :
    (Storage.new value.shape : Storage T).set_subarray
      (List.replicate value.shape.length SliceInfoElem.newAxis) value =
      some ⟨⟨[], value.data⟩⟩ := by
  obtain ⟨sh, dat⟩ := value
  simp only [ArrayD.shape] at hv
  subst hv
  rfl

/-! ### Claim theorems -/

/-- C1: after every completed public Cache operation (new, set, get,
delete), starting from any state reachable from `Cache::new`, the set of
keys held in the map equals the set of keys held in the LRU tracker, and
the number of entries in the map is at most the capacity. -/
theorem cache_reachable_invariant [DecidableEq K] [Zero T] {c : Cache K T}
    (h : Reachable c) :
    (∀ k, k ∈ mapKeys c.map ↔ k ∈ c.lru.order) ∧
      c.map.length ≤ c.capacity := by
  obtain ⟨hperm, _, hlen, _⟩ := reachable_wf h
  exact ⟨fun k => hperm.mem_iff, hlen⟩

/-- C1 witness: the invariant at the concrete reachable state obtained by
one `set` on a fresh cache of capacity 2. -/
theorem cache_reachable_invariant_witness :
    Reachable ((Cache.new 2 : Cache Nat Int).set 0 ⟨[], [42]⟩).2 ∧
    ((∀ k, k ∈ mapKeys ((Cache.new 2 : Cache Nat Int).set 0 ⟨[], [42]⟩).2.map ↔
        k ∈ ((Cache.new 2 : Cache Nat Int).set 0 ⟨[], [42]⟩).2.lru.order) ∧
      ((Cache.new 2 : Cache Nat Int).set 0 ⟨[], [42]⟩).2.map.length ≤
        ((Cache.new 2 : Cache Nat Int).set 0 ⟨[], [42]⟩).2.capacity) :=
  ⟨Reachable.set 0 ⟨[], [42]⟩ (Reachable.new 2),
    cache_reachable_invariant (Reachable.set 0 ⟨[], [42]⟩ (Reachable.new 2))⟩

/-- C2 counterexample: on a full cache of capacity 2 holding keys 1 and 2,
a `set` that replaces the already-present key 2 still performs the eviction
step and removes the entry of key 1. -/
theorem set_replacing_evicts_cex :
    (1 ∈ mapKeys (setSeq (Cache.new 2 : Cache Nat Int)
        [(1, ⟨[], [42]⟩), (2, ⟨[], [43]⟩)]).map) ∧
    (2 ∈ mapKeys (setSeq (Cache.new 2 : Cache Nat Int)
        [(1, ⟨[], [42]⟩), (2, ⟨[], [43]⟩)]).map) ∧
    (((setSeq (Cache.new 2 : Cache Nat Int)
        [(1, ⟨[], [42]⟩), (2, ⟨[], [43]⟩)]).set 2 ⟨[], [99]⟩).1 =
      SetResult.ok) ∧
    (1 ∉ mapKeys ((setSeq (Cache.new 2 : Cache Nat Int)
        [(1, ⟨[], [42]⟩), (2, ⟨[], [43]⟩)]).set 2 ⟨[], [99]⟩).2.map) := by
  decide

/-- C3 counterexample: a `set` of a one-dimensional value neither returns
success nor returns an error — it panics in the slice-and-assign step. -/
theorem set_atomicity_cex :
    ¬ (((Cache.new 1 : Cache Nat Int).set 0 ⟨[1], [5]⟩).1 = SetResult.ok ∨
       ∃ msg, ((Cache.new 1 : Cache Nat Int).set 0 ⟨[1], [5]⟩).1 =
         SetResult.error msg) := by
  have hp : ((Cache.new 1 : Cache Nat Int).set 0 ⟨[1], [5]⟩).1 =
      SetResult.panicked := by decide
  rintro (h1 | ⟨msg, h1⟩) <;> rw [hp] at h1 <;> simp at h1

/-- C6: on a fresh cache of capacity 2, the sequence `set 0; set 1; get 0;
set 2` evicts key 1 (the least recently touched key) and not key 0:
afterwards keys 0 and 2 are present with their values and key 1 is absent. -/
theorem recency_update_scenario :
    (0 ∈ mapKeys ((((((Cache.new 2 : Cache Nat Int).set 0
        ⟨[], [10]⟩).2.set 1 ⟨[], [11]⟩).2.get 0).2.set 2
        ⟨[], [12]⟩).2).map) ∧
    (2 ∈ mapKeys ((((((Cache.new 2 : Cache Nat Int).set 0
        ⟨[], [10]⟩).2.set 1 ⟨[], [11]⟩).2.get 0).2.set 2
        ⟨[], [12]⟩).2).map) ∧
    (1 ∉ mapKeys ((((((Cache.new 2 : Cache Nat Int).set 0
        ⟨[], [10]⟩).2.set 1 ⟨[], [11]⟩).2.get 0).2.set 2
        ⟨[], [12]⟩).2).map) ∧
    (((((((Cache.new 2 : Cache Nat Int).set 0 ⟨[], [10]⟩).2.set 1
        ⟨[], [11]⟩).2.get 0).2.set 2 ⟨[], [12]⟩).2).get 1).1 =
      Except.error "Key not found in cache" ∧
    (((((((Cache.new 2 : Cache Nat Int).set 0 ⟨[], [10]⟩).2.set 1
        ⟨[], [11]⟩).2.get 0).2.set 2 ⟨[], [12]⟩).2).get 0).1 =
      Except.ok ⟨[], [10]⟩ ∧
    (((((((Cache.new 2 : Cache Nat Int).set 0 ⟨[], [10]⟩).2.set 1
        ⟨[], [11]⟩).2.get 0).2.set 2 ⟨[], [12]⟩).2).get 2).1 =
      Except.ok ⟨[], [12]⟩ := by
  decide

/-- C7: for every key absent from the mapping, `get` and `delete` each fail
with the not-found error and leave the entire cache state unchanged. -/
theorem get_delete_absent_unchanged [DecidableEq K] {c : Cache K T} {key : K}
    (h : key ∉ mapKeys c.map) :
    c.get key = (Except.error "Key not found in cache", c) ∧
    c.delete key = (Except.error "Key not found in cache", c) := by
  have hg : assocGet c.map key = none := assocGet_eq_none_iff.mpr h
  constructor
  · unfold Cache.get
    rw [hg]
  · unfold Cache.delete
    rw [hg]

/-- C7 witness: `get`/`delete` of the absent key 5 on a fresh cache. -/
theorem get_delete_absent_unchanged_witness :
    (5 ∉ mapKeys (Cache.new 2 : Cache Nat Int).map) ∧
    ((Cache.new 2 : Cache Nat Int).get 5 =
        (Except.error "Key not found in cache", Cache.new 2) ∧
      (Cache.new 2 : Cache Nat Int).delete 5 =
        (Except.error "Key not found in cache", Cache.new 2)) :=
  ⟨by decide, get_delete_absent_unchanged (by decide)⟩

/-- C8 counterexample: `LruCache::access` of a fresh key on a full tracker
of capacity 1 removes the other key 1 from the tracker, so `access` does
not merely move-or-insert. -/
theorem access_evicts_cex :
    (1 ∈ ((LruCache.new 1 : LruCache Nat).access 1).order) ∧
    (1 ∉ (((LruCache.new 1 : LruCache Nat).access 1).access 2).order) := by
  decide

/-- C9 counterexample: on a cache of capacity 0, a `set` of a
one-dimensional value panics instead of failing with the
capacity-exhausted error. -/
theorem capacity_zero_panic_cex :
    ((Cache.new 0 : Cache Nat Int).set 0 ⟨[1], [5]⟩).1 =
        SetResult.panicked ∧
    ((Cache.new 0 : Cache Nat Int).set 0 ⟨[1], [5]⟩).1 ≠
      SetResult.error "Cache is full and unable to evict items" := by
  decide

/-- C10: `Cache::set` builds its slice argument as one `NewAxis` per
dimension of the value, which consumes zero dimensions of the freshly
allocated buffer, so `set` panics exactly when the value has at least one
dimension, and precisely the internal `set_subarray` call is what rejects
such a value. -/
theorem set_panics_iff_ndim_pos [DecidableEq K] [Zero T] (c : Cache K T)
    (key : K) (value : ArrayD T) :
    ((c.set key value).1 = SetResult.panicked ↔ value.ndim ≠ 0) ∧
    ((Storage.new value.shape : Storage T).set_subarray
        (List.replicate value.ndim SliceInfoElem.newAxis) value = none ↔
      value.ndim ≠ 0) := by
  have hnd : (value.ndim ≠ 0) ↔ value.shape ≠ [] := by
    unfold ArrayD.ndim
    rw [not_iff_not]
    exact List.length_eq_zero
  have hrepl : List.replicate value.ndim SliceInfoElem.newAxis =
      List.replicate value.shape.length SliceInfoElem.newAxis := rfl
  constructor
  · rw [hnd]
    by_cases hv : value.shape = []
    · rcases set_fst_of_shape_nil c key hv with h1 | h1 <;>
        rw [h1] <;> simp [hv]
    · rw [set_eq_panicked_of_shape_ne_nil c key hv]
      simp [hv]
  · rw [hnd, hrepl]
    by_cases hv : value.shape = []
    · rw [set_subarray_newAxis_of_nil hv]
      simp [hv]
    · rw [set_subarray_newAxis_of_ne_nil hv]
      simp [hv]

/-- C2 (amended): during a non-panicking `Cache::set`, the eviction step is
performed exactly when `map.len() >= capacity`, whether or not the key being
set is already present. Below capacity the key set afterwards holds exactly
the old keys plus the set key; at capacity the oldest tracker key `e` is
removed (unless it is the set key itself, which is re-inserted), even when
the set key is already present. -/
theorem set_eviction_at_capacity [DecidableEq K] [Zero T] (c : Cache K T)
    (key : K) (value : ArrayD T) (hv : value.shape = [])
    (hnd : (mapKeys c.map).Nodup) :
    (c.map.length < c.capacity →
      (c.set key value).1 = SetResult.ok ∧
      (∀ k2, k2 ∈ mapKeys (c.set key value).2.map ↔
        (k2 ∈ mapKeys c.map ∨ k2 = key))) ∧
    (c.map.length ≥ c.capacity → ∀ e o2, c.lru.order = e :: o2 →
      (c.set key value).1 = SetResult.ok ∧
      (∀ k2, k2 ∈ mapKeys (c.set key value).2.map ↔
        ((k2 ∈ mapKeys c.map ∧ k2 ≠ e) ∨ k2 = key))) := by
  rw [set_eq_of_shape_nil c key hv]
  constructor
  · intro hlt
    rw [if_neg (Nat.not_le.mpr hlt)]
    refine ⟨rfl, fun k2 => ?_⟩
    exact mem_mapKeys_assocInsert _
  · intro hge e o2 hord
    rw [if_pos hge]
    simp only [LruCache.evict, hord]
    refine ⟨by trivial, fun k2 => ?_⟩
    rw [mem_mapKeys_assocInsert, mapKeys_assocRemove,
      hnd.mem_erase_iff]
    tauto

/-- C2 witness: the amended statement at the concrete full capacity-2
cache holding keys 1 and 2. -/
theorem set_eviction_at_capacity_witness :
    ((⟨[], [99]⟩ : ArrayD Int).shape = [] ∧
      (mapKeys exCacheTwoFull.map).Nodup) ∧
    ((exCacheTwoFull.map.length < exCacheTwoFull.capacity →
      (exCacheTwoFull.set 2 ⟨[], [99]⟩).1 = SetResult.ok ∧
      (∀ k2, k2 ∈ mapKeys (exCacheTwoFull.set 2 ⟨[], [99]⟩).2.map ↔
        (k2 ∈ mapKeys exCacheTwoFull.map ∨ k2 = 2))) ∧
    (exCacheTwoFull.map.length ≥ exCacheTwoFull.capacity →
      ∀ e o2, exCacheTwoFull.lru.order = e :: o2 →
      (exCacheTwoFull.set 2 ⟨[], [99]⟩).1 = SetResult.ok ∧
      (∀ k2, k2 ∈ mapKeys (exCacheTwoFull.set 2 ⟨[], [99]⟩).2.map ↔
        ((k2 ∈ mapKeys exCacheTwoFull.map ∧ k2 ≠ e) ∨ k2 = 2)))) :=
  ⟨⟨rfl, by decide⟩,
    set_eviction_at_capacity exCacheTwoFull 2 ⟨[], [99]⟩ rfl (by decide)⟩

/-- C3 (amended): every `set` call either returns success with the new
entry installed in both the mapping and the tracker (at the newest end), or
returns an error leaving the cache unchanged, or panics in the buffer-write
step, which precedes every mutation, leaving the cache unchanged. -/
theorem set_atomic_or_panics [DecidableEq K] [Zero T] (c : Cache K T)
    (key : K) (value : ArrayD T) :
    ((c.set key value).1 = SetResult.ok ∧
      assocGet (c.set key value).2.map key = some ⟨⟨[], value.data⟩⟩ ∧
      (c.set key value).2.lru.order.getLast? = some key) ∨
    ((c.set key value).1 =
        SetResult.error "Cache is full and unable to evict items" ∧
      (c.set key value).2 = c) ∨
    ((c.set key value).1 = SetResult.panicked ∧
      (c.set key value).2 = c) := by
  by_cases hv : value.shape = []
  · rw [set_eq_of_shape_nil c key hv]
    by_cases hge : c.map.length ≥ c.capacity
    · rw [if_pos hge]
      cases hord : c.lru.order with
      | nil =>
        simp only [LruCache.evict, hord]
        right
        left
        exact ⟨by trivial, by trivial⟩
      | cons e o2 =>
        simp only [LruCache.evict, hord]
        left
        exact ⟨by trivial, assocGet_assocInsert_self _ _ _,
          access_order_getLast _ _⟩
    · rw [if_neg hge]
      left
      exact ⟨by trivial, assocGet_assocInsert_self _ _ _,
        access_order_getLast _ _⟩
  · rw [set_eq_panicked_of_shape_ne_nil c key hv]
    right
    right
    exact ⟨by trivial, by trivial⟩

/-- C4: whenever `set(k, v)` returns success, an immediately following
`get(k)` returns success with a read-only view equal to `v`. -/
theorem set_get_roundtrip [DecidableEq K] [Zero T] (c : Cache K T) (key : K)
    (value : ArrayD T) (h : (c.set key value).1 = SetResult.ok) :
    ((c.set key value).2.get key).1 = Except.ok value := by
  by_cases hv : value.shape = []
  · have hval : (⟨[], value.data⟩ : ArrayD T) = value := by
      obtain ⟨sh, dat⟩ := value
      simp only [ArrayD.shape] at hv
      subst hv
      rfl
    rw [set_eq_of_shape_nil c key hv] at h ⊢
    by_cases hge : c.map.length ≥ c.capacity
    · rw [if_pos hge] at h ⊢
      cases hord : c.lru.order with
      | nil =>
        simp only [LruCache.evict, hord] at h
        simp at h
      | cons e o2 =>
        simp only [LruCache.evict, hord]
        show (Cache.get _ key).1 = Except.ok value
        unfold Cache.get
        rw [assocGet_assocInsert_self]
        simp only [Storage.get_data]
        rw [hval]
    · rw [if_neg hge]
      show (Cache.get _ key).1 = Except.ok value
      unfold Cache.get
      rw [assocGet_assocInsert_self]
      simp only [Storage.get_data]
      rw [hval]
  · rw [set_eq_panicked_of_shape_ne_nil c key hv] at h
    simp at h

/-- C4 witness: the round trip at a concrete input. -/
theorem set_get_roundtrip_witness :
    (((Cache.new 2 : Cache Nat Int).set 0 ⟨[], [42]⟩).1 = SetResult.ok) ∧
    ((((Cache.new 2 : Cache Nat Int).set 0 ⟨[], [42]⟩).2.get 0).1 =
      Except.ok ⟨[], [42]⟩) :=
  ⟨by decide, set_get_roundtrip (Cache.new 2) 0 ⟨[], [42]⟩ (by decide)⟩

/-- C8 (amended): `LruCache::access` always ends with the given key at the
newest end; it removes another key `k2` exactly when the accessed key is
absent, the tracker is at capacity, and `k2` is the oldest (front) key —
the eviction of the cache-level LRU victim is the separate `evict`
operation. -/
theorem access_newest_end_spec [DecidableEq K] (l : LruCache K) (key : K)
    (hnd : l.order.Nodup) :
    (l.access key).order.getLast? = some key ∧
    (∀ k2, k2 ≠ key →
      (k2 ∈ (l.access key).order ↔
        k2 ∈ l.order ∧
          ¬(key ∉ l.order ∧ l.order.length = l.capacity ∧
            l.order.head? = some k2))) := by
  refine ⟨access_order_getLast l key, fun k2 hne => ?_⟩
  by_cases hk : key ∈ l.order
  · rw [access_order_of_mem hk]
    simp only [List.mem_append, List.mem_singleton, hnd.mem_erase_iff]
    constructor
    · rintro (⟨h1, h2⟩ | h1)
      · exact ⟨h2, fun hcon => hcon.1 hk⟩
      · exact absurd h1 hne
    · intro h1
      exact Or.inl ⟨hne, h1.1⟩
  · by_cases hlen : l.order.length = l.capacity
    · rw [access_order_of_not_mem_eq hk hlen]
      cases horder : l.order with
      | nil => simp [horder, hne]
      | cons h0 t =>
        rw [horder] at hnd hk hlen
        have hn0 : h0 ∉ t := (List.nodup_cons.mp hnd).1
        simp only [horder, List.tail_cons, List.mem_append,
          List.mem_singleton, List.mem_cons, List.head?_cons, hk, hlen,
          not_false_iff, true_and, Option.some.injEq]
        constructor
        · rintro (h1 | h1 | h1)
          · exact ⟨Or.inr h1, fun he => hn0 (he ▸ h1)⟩
          · exact absurd h1 hne
          · exact absurd h1 (List.not_mem_nil k2)
        · rintro ⟨h1 | h1, h2⟩
          · exact absurd h1.symm h2
          · exact Or.inl h1
    · rw [access_order_of_not_mem_ne hk hlen]
      simp only [List.mem_append, List.mem_singleton]
      constructor
      · rintro (h1 | h1)
        · exact ⟨h1, fun hcon => hlen hcon.2.1⟩
        · exact absurd h1 hne
      · intro h1
        exact Or.inl h1.1

/-- C8 witness: the amended access specification at the concrete tracker
holding keys 1 and 2 with capacity 2, touched with the fresh key 3. -/
theorem access_newest_end_spec_witness :
    exLru.order.Nodup ∧
    ((exLru.access 3).order.getLast? = some 3 ∧
      (∀ k2, k2 ≠ 3 →
        (k2 ∈ (exLru.access 3).order ↔
          k2 ∈ exLru.order ∧
            ¬(3 ∉ exLru.order ∧ exLru.order.length = exLru.capacity ∧
              exLru.order.head? = some k2)))) :=
  ⟨by decide, access_newest_end_spec exLru 3 (by decide)⟩

/-- C9 (amended): for every reachable cache of capacity 0 the mapping is
empty, and every `set` call leaves the cache unchanged and either fails
with the capacity-exhausted error (zero-dimensional value) or panics in
the buffer-write step (value with at least one dimension); no entry is
ever inserted. -/
theorem capacity_zero_set_fails [DecidableEq K] [Zero T] {c : Cache K T}
    (h : Reachable c) (hcap : c.capacity = 0) (key : K) (value : ArrayD T) :
    c.map = [] ∧ (c.set key value).2 = c ∧
    (value.shape = [] →
      (c.set key value).1 =
        SetResult.error "Cache is full and unable to evict items") ∧
    (value.shape ≠ [] → (c.set key value).1 = SetResult.panicked) := by
  obtain ⟨hperm, hnd, hlen, hc⟩ := reachable_wf h
  have hmap : c.map = [] := by
    rw [← List.length_eq_zero]
    omega
  have hord : c.lru.order = [] := by
    rw [hmap] at hperm
    rw [mapKeys_nil] at hperm
    exact hperm.symm.eq_nil
  have hge : c.map.length ≥ c.capacity := by omega
  refine ⟨hmap, ?_, ?_, ?_⟩
  · by_cases hv : value.shape = []
    · rw [set_eq_of_shape_nil c key hv, if_pos hge]
      simp only [LruCache.evict, hord]
    · rw [set_eq_panicked_of_shape_ne_nil c key hv]
  · intro hv
    rw [set_eq_of_shape_nil c key hv, if_pos hge]
    simp only [LruCache.evict, hord]
  · intro hv
    rw [set_eq_panicked_of_shape_ne_nil c key hv]

/-- Running `setSeq` over an appended list runs the two parts in order. -/
theorem setSeq_append [DecidableEq K] [Zero T] (c : Cache K T)
    (l1 l2 : List (K × ArrayD T)) :
    setSeq c (l1 ++ l2) = setSeq (setSeq c l1) l2 := by
  induction l1 generalizing c with
  | nil => rfl
  | cons p rest ih =>
    obtain ⟨k, v⟩ := p
    simp only [List.cons_append, setSeq]
    exact ih _

/-- Filling phase: successive `set` calls with fresh distinct
zero-dimensional values below capacity append the keys, in order, to both
the mapping and the tracker. -/
theorem setSeq_fill [DecidableEq K] [Zero T] (pairs : List (K × ArrayD T)) :
    ∀ c : Cache K T,
      mapKeys c.map = c.lru.order →
      c.lru.capacity = c.capacity →
      (c.lru.order ++ pairs.map Prod.fst).Nodup →
      c.lru.order.length + pairs.length ≤ c.capacity →
      (∀ p ∈ pairs, (p.2).shape = ([] : List Nat)) →
      mapKeys (setSeq c pairs).map = c.lru.order ++ pairs.map Prod.fst ∧
      (setSeq c pairs).lru.order = c.lru.order ++ pairs.map Prod.fst ∧
      (setSeq c pairs).lru.capacity = c.capacity ∧
      (setSeq c pairs).capacity = c.capacity := by
  induction pairs with
  | nil =>
    intro c h1 h2 h3 h4 h5
    simp only [setSeq, List.map_nil, List.append_nil]
    exact ⟨h1, by trivial, h2, by trivial⟩
  | cons p rest ih =>
    intro c h1 h2 h3 h4 h5
    obtain ⟨k, v⟩ := p
    have hv : v.shape = [] := h5 (k, v) (List.mem_cons_self _ _)
    have hk : k ∉ c.lru.order := by
      rcases List.nodup_append.mp h3 with ⟨_, _, hdisj⟩
      exact fun hmem => hdisj hmem (List.mem_cons_self _ _)
    have hlenmap : c.map.length = c.lru.order.length := by
      rw [← length_mapKeys, h1]
    have hlt : c.map.length < c.capacity := by
      simp only [List.length_cons] at h4
      omega
    have hstep : (c.set k v).2 =
        Cache.mk (assocInsert c.map k ⟨⟨[], v.data⟩⟩) (c.lru.access k)
          c.capacity := by
      rw [set_eq_of_shape_nil c k hv, if_neg (Nat.not_le.mpr hlt)]
    have hc1order : (c.lru.access k).order = c.lru.order ++ [k] :=
      access_order_of_not_mem_ne hk (by rw [h2]; omega)
    have hc1keys :
        mapKeys (assocInsert c.map k (⟨⟨[], v.data⟩⟩ : Storage T)) =
          c.lru.order ++ [k] := by
      rw [mapKeys_assocInsert_of_not_mem _ (by rw [h1]; exact hk), h1]
    obtain ⟨ih1, ih2, ih3, ih4⟩ :=
      ih (Cache.mk (assocInsert c.map k ⟨⟨[], v.data⟩⟩) (c.lru.access k)
          c.capacity)
        (by
          show mapKeys (assocInsert c.map k ⟨⟨[], v.data⟩⟩) =
            (c.lru.access k).order
          rw [hc1keys, hc1order])
        (by
          show (c.lru.access k).capacity = c.capacity
          rw [access_capacity]
          exact h2)
        (by
          show ((c.lru.access k).order ++ rest.map Prod.fst).Nodup
          rw [hc1order, List.append_assoc, List.singleton_append]
          simpa using h3)
        (by
          show (c.lru.access k).order.length + rest.length ≤ c.capacity
          rw [hc1order, List.length_append]
          simp only [List.length_singleton, List.length_cons,
            List.length_nil] at h4 ⊢
          omega)
        (fun p hp => h5 p (List.mem_cons_of_mem _ hp))
    simp only [setSeq, hstep]
    refine ⟨?_, ?_, ?_, ?_⟩
    · rw [ih1]
      show (c.lru.access k).order ++ rest.map Prod.fst = _
      rw [hc1order, List.append_assoc, List.singleton_append, List.map_cons]
    · rw [ih2]
      show (c.lru.access k).order ++ rest.map Prod.fst = _
      rw [hc1order, List.append_assoc, List.singleton_append, List.map_cons]
    · exact ih3
    · exact ih4

/-- Eviction phase: a `set` of a fresh key with a zero-dimensional value on
a full cache removes exactly the oldest tracker key and appends the new
key at the newest end of both structures. -/
theorem set_at_capacity [DecidableEq K] [Zero T] (c : Cache K T) (k : K)
    (v : ArrayD T) (e : K) (o2 : List K) (hv : v.shape = [])
    (heq : mapKeys c.map = c.lru.order) (hord : c.lru.order = e :: o2)
    (hcap : c.lru.capacity = c.capacity) (hfull : c.map.length = c.capacity)
    (hk : k ∉ c.lru.order) :
    mapKeys (c.set k v).2.map = o2 ++ [k] ∧
    (c.set k v).2.lru.order = o2 ++ [k] ∧
    (c.set k v).2.lru.capacity = c.capacity ∧
    (c.set k v).2.capacity = c.capacity := by
  have hge : c.map.length ≥ c.capacity := by omega
  rw [set_eq_of_shape_nil c k hv, if_pos hge]
  simp only [LruCache.evict, hord]
  have hkeys1 : mapKeys (assocRemove c.map e) = o2 := by
    rw [mapKeys_assocRemove, heq, hord, List.erase_cons_head]
  have hko2 : k ∉ o2 := fun hmem => hk (hord ▸ List.mem_cons_of_mem e hmem)
  have hcapfact : c.capacity = o2.length + 1 := by
    rw [← hfull, ← length_mapKeys, heq, hord]
    simp
  have hne : (LruCache.mk o2 c.lru.capacity).order.length ≠
      (LruCache.mk o2 c.lru.capacity).capacity := by
    show o2.length ≠ c.lru.capacity
    rw [hcap]
    omega
  have g2 : ((LruCache.mk o2 c.lru.capacity).access k).order = o2 ++ [k] :=
    access_order_of_not_mem_ne hko2 hne
  have g1 : mapKeys (assocInsert (assocRemove c.map e) k
      (⟨⟨[], v.data⟩⟩ : Storage T)) = o2 ++ [k] := by
    rw [mapKeys_assocInsert_of_not_mem _ (by rw [hkeys1]; exact hko2),
      hkeys1]
  have g3 : ((LruCache.mk o2 c.lru.capacity).access k).capacity =
      c.capacity := by
    rw [access_capacity]
    exact hcap
  exact ⟨g1, g2, g3, by trivial⟩

/-- C5: for every capacity `n ≥ 1`, after `n + 1` successive successful
`set` calls with distinct keys `k0 .. kn` (zero-dimensional values, hence
non-panicking) on a fresh cache of capacity `n` with no intervening `get`,
`k0` is absent (`get k0` fails with the not-found error) and each of
`k1 .. kn` is present. -/
theorem eviction_order [DecidableEq K] [Zero T] (n : Nat) (hn : 1 ≤ n)
    (k0 : K) (v0 : ArrayD T) (rest : List (K × ArrayD T))
    (hlen : rest.length = n) (hnd : (k0 :: rest.map Prod.fst).Nodup)
    (hv0 : v0.shape = []) (hsh : ∀ p ∈ rest, (p.2).shape = ([] : List Nat)) :
    ((setSeq (Cache.new n : Cache K T) ((k0, v0) :: rest)).get k0).1 =
      Except.error "Key not found in cache" ∧
    (∀ k ∈ rest.map Prod.fst,
      ∃ a, ((setSeq (Cache.new n : Cache K T) ((k0, v0) :: rest)).get k).1 =
        Except.ok a) := by
  rcases List.eq_nil_or_concat rest with hnil | ⟨rest2, pl, hsplit⟩
  · rw [hnil] at hlen
    simp at hlen
    omega
  obtain ⟨kl, vl⟩ := pl
  rw [List.concat_eq_append] at hsplit
  subst hsplit
  have hlen2 : rest2.length + 1 = n := by simpa using hlen
  have hkeysplit : (rest2 ++ [(kl, vl)]).map Prod.fst =
      rest2.map Prod.fst ++ [kl] := by simp
  rw [hkeysplit] at hnd
  have hndfill : (k0 :: rest2.map Prod.fst).Nodup := by
    refine List.Nodup.sublist ?_ hnd
    exact (List.sublist_append_left _ _).cons₂ k0
  have hk0notrest : k0 ∉ rest2.map Prod.fst ++ [kl] :=
    (List.nodup_cons.mp hnd).1
  have hklfresh : kl ∉ k0 :: rest2.map Prod.fst := by
    rcases List.nodup_cons.mp hnd with ⟨hk0, hndr⟩
    rcases List.nodup_append.mp hndr with ⟨_, _, hdisj⟩
    intro hmem
    rcases List.mem_cons.mp hmem with hc | hc
    · exact hk0 (by
        rw [hc]
        exact List.mem_append_right _ (List.mem_cons_self _ _))
    · exact hdisj hc (List.mem_cons_self _ _)
  obtain ⟨f1, f2, f3, f4⟩ :=
    setSeq_fill ((k0, v0) :: rest2) (Cache.new n : Cache K T) rfl rfl
      (by
        show (([] : List K) ++ (k0 :: rest2.map Prod.fst)).Nodup
        rw [List.nil_append]
        exact hndfill)
      (by
        show ([] : List K).length + (rest2.length + 1) ≤ n
        simp
        omega)
      (by
        rintro p hp
        rcases List.mem_cons.mp hp with hc | hc
        · rw [hc]
          exact hv0
        · exact hsh p (List.mem_append_left _ hc))
  have hnewred : (Cache.new n : Cache K T).lru.order ++
      List.map Prod.fst ((k0, v0) :: rest2) = k0 :: rest2.map Prod.fst := rfl
  have f1' : mapKeys (setSeq (Cache.new n : Cache K T) ((k0, v0) :: rest2)).map =
      k0 :: rest2.map Prod.fst := f1.trans hnewred
  have f2' : (setSeq (Cache.new n : Cache K T) ((k0, v0) :: rest2)).lru.order =
      k0 :: rest2.map Prod.fst := f2.trans hnewred
  have f4' : (setSeq (Cache.new n : Cache K T) ((k0, v0) :: rest2)).capacity =
      n := f4.trans rfl
  have hdecomp : setSeq (Cache.new n : Cache K T)
      ((k0, v0) :: (rest2 ++ [(kl, vl)])) =
      ((setSeq (Cache.new n : Cache K T) ((k0, v0) :: rest2)).set kl vl).2 := by
    rw [show (k0, v0) :: (rest2 ++ [(kl, vl)]) =
        ((k0, v0) :: rest2) ++ [(kl, vl)] from rfl, setSeq_append]
    rfl
  have hfull : (setSeq (Cache.new n : Cache K T) ((k0, v0) :: rest2)).map.length =
      (setSeq (Cache.new n : Cache K T) ((k0, v0) :: rest2)).capacity := by
    rw [← length_mapKeys, f1', f4', List.length_cons, List.length_map]
    omega
  obtain ⟨g1, g2, g3, g4⟩ :=
    set_at_capacity (setSeq (Cache.new n : Cache K T) ((k0, v0) :: rest2))
      kl vl k0 (rest2.map Prod.fst)
      (hsh (kl, vl) (List.mem_append_right _ (List.mem_cons_self _ _)))
      (f1'.trans f2'.symm) f2'
      (f3.trans f4.symm) hfull
      (by rw [f2']; exact hklfresh)
  rw [hdecomp]
  constructor
  · have habs : k0 ∉ mapKeys
        ((setSeq (Cache.new n : Cache K T) ((k0, v0) :: rest2)).set kl vl).2.map := by
      rw [g1]
      exact hk0notrest
    show (Cache.get _ k0).1 = Except.error "Key not found in cache"
    unfold Cache.get
    rw [assocGet_eq_none_iff.mpr habs]
  · intro k hkmem
    rw [hkeysplit] at hkmem
    have hpresent : k ∈ mapKeys
        ((setSeq (Cache.new n : Cache K T) ((k0, v0) :: rest2)).set kl vl).2.map := by
      rw [g1]
      exact hkmem
    obtain ⟨st, hst⟩ :=
      Option.isSome_iff_exists.mp (assocGet_isSome_iff.mpr hpresent)
    refine ⟨st.get_data, ?_⟩
    show (Cache.get _ k).1 = Except.ok st.get_data
    unfold Cache.get
    rw [hst]

/-- C5 witness: capacity 1 with the two distinct keys 0 and 1. -/
theorem eviction_order_witness :
    (1 ≤ 1 ∧ ([(1, ⟨[], [2]⟩)] : List (Nat × ArrayD Int)).length = 1 ∧
      (0 :: ([(1, (⟨[], [2]⟩ : ArrayD Int))]).map Prod.fst).Nodup ∧
      (⟨[], [1]⟩ : ArrayD Int).shape = [] ∧
      (∀ p ∈ ([(1, (⟨[], [2]⟩ : ArrayD Int))] : List (Nat × ArrayD Int)),
        (p.2).shape = ([] : List Nat))) ∧
    (((setSeq (Cache.new 1 : Cache Nat Int)
        ((0, ⟨[], [1]⟩) :: [(1, ⟨[], [2]⟩)])).get 0).1 =
      Except.error "Key not found in cache" ∧
    (∀ k ∈ ([(1, (⟨[], [2]⟩ : ArrayD Int))]).map Prod.fst,
      ∃ a, ((setSeq (Cache.new 1 : Cache Nat Int)
          ((0, ⟨[], [1]⟩) :: [(1, ⟨[], [2]⟩)])).get k).1 = Except.ok a)) :=
  ⟨⟨le_refl 1, rfl, by decide, rfl, by decide⟩,
    eviction_order 1 (le_refl 1) 0 ⟨[], [1]⟩ [(1, ⟨[], [2]⟩)] rfl
      (by decide) rfl (by decide)⟩

/-- C9 witness: the amended statement on the fresh capacity-0 cache with a
zero-dimensional value. -/
theorem capacity_zero_set_fails_witness :
    ((Cache.new 0 : Cache Nat Int).capacity = 0) ∧
    ((Cache.new 0 : Cache Nat Int).map = [] ∧
      ((Cache.new 0 : Cache Nat Int).set 7 ⟨[], [5]⟩).2 = Cache.new 0 ∧
      ((⟨[], [5]⟩ : ArrayD Int).shape = [] →
        ((Cache.new 0 : Cache Nat Int).set 7 ⟨[], [5]⟩).1 =
          SetResult.error "Cache is full and unable to evict items") ∧
      ((⟨[], [5]⟩ : ArrayD Int).shape ≠ [] →
        ((Cache.new 0 : Cache Nat Int).set 7 ⟨[], [5]⟩).1 =
          SetResult.panicked)) :=
  ⟨rfl, capacity_zero_set_fails (Reachable.new 0) rfl 7 ⟨[], [5]⟩⟩

end NeuroBin
